import Mathlib

/-!
Verification of the decoding engine of `inference_glm.py` (and the chatglm
example's `chat_model.py`) via a shallow embedding.

Conventions of the embedding:
* logits are exact rationals (`ℚ`); an entry filtered to `-inf` is `none`
  in a `List (Option ℚ)`;
* the floating-point exponential inside `softmax` is an abstract parameter
  `E : ℚ → ℚ`, assumed positive (and strictly monotone where an argument
  needs it); `softmax(x)_i = E x_i / Σ_j E x_j`, so filtered (`none`)
  entries weigh `0 = exp(-inf)`;
* `torch.multinomial(probs, 1)` is modelled by a draw `u ∈ [0,1)`: the
  sampled index is the first whose cumulative weight exceeds `u * total`;
* `torch.sort(descending=True)` / `torch.topk` are modelled with a stable
  insertion sort on the descending order;
* code that raises (`torch.topk` with `k` out of range, the
  `NotImplementedError` in `get_batch`) returns an error value.
-/

namespace SwissArmyTransformer

/-- Order on `Option ℚ` where `none` plays `-inf`: `oLe a b` means `a ≤ b`. -/
def oLe : Option ℚ → Option ℚ → Prop
  | none, _ => True
  | some _, none => False
  | some x, some y => x ≤ y

instance : DecidableRel oLe := fun a b => by
  cases a <;> cases b <;> simp only [oLe] <;> infer_instance

/-- Descending comparison used to sort `(index, logit)` pairs, as
`torch.sort(logits, descending=True)` does (indices carried along as
`sorted_indices`). -/
def rDesc : (ℕ × Option ℚ) → (ℕ × Option ℚ) → Prop := fun a b => oLe b.2 a.2

instance : DecidableRel rDesc := fun a b => by
  unfold rDesc; infer_instance

instance : IsTotal (ℕ × Option ℚ) rDesc := by
  constructor
  intro a b
  unfold rDesc
  rcases a with ⟨i, _ | x⟩ <;> rcases b with ⟨j, _ | y⟩ <;> simp [oLe]
  exact le_total y x

instance : IsTrans (ℕ × Option ℚ) rDesc := by
  constructor
  intro a b c hab hbc
  unfold rDesc at *
  rcases a with ⟨i, _ | x⟩ <;> rcases b with ⟨j, _ | y⟩ <;> rcases c with ⟨k, _ | z⟩
  all_goals simp only [oLe] at *
  all_goals try exact le_trans hbc hab

instance : IsRefl (ℕ × Option ℚ) rDesc := by
  constructor
  intro a
  rcases a with ⟨i, _ | x⟩ <;> simp [rDesc, oLe]

/-- Weight a possibly filtered logit contributes to the softmax:
`exp(-inf) = 0`, otherwise the abstract exponential `E`. -/
def optWeight (E : ℚ → ℚ) : Option ℚ → ℚ
  | none => 0
  | some x => E x

/-- `torch.cumsum` on a 1-D tensor. -/
def cumsum : List ℚ → List ℚ
  | [] => []
  | x :: xs => x :: (cumsum xs).map (fun y => x + y)

/-- The shift in `top_k_logits`:
`sorted_indices_to_remove[..., 1:] = sorted_indices_to_remove[..., :-1]` then
`sorted_indices_to_remove[..., 0] = 0`. -/
def shiftMask (l : List Bool) : List Bool :=
  match l with
  | [] => []
  | _ :: _ => false :: l.dropLast

/-- First index whose cumulative weight exceeds the remaining target;
helper for the multinomial draw. -/
def pickAux : List ℚ → ℚ → ℕ → Option ℕ
  | [], _, _ => none
  | w :: ws, target, i => if target < w then some i else pickAux ws (target - w) (i + 1)

/-- `torch.multinomial(weights, 1)` driven by a uniform draw `u ∈ [0,1)`:
returns the first index `i` with `w₀ + ⋯ + wᵢ > u * (Σ w)`.  `none` models
the runtime error torch raises on a degenerate distribution. -/
def multinomialPick (w : List ℚ) (u : ℚ) : Option ℕ :=
  pickAux w (u * w.sum) 0

/-- The value `torch.topk(logits, top_k)[0][..., -1]`: the `top_k`-th largest
logit.  `none` models the `RuntimeError` torch raises when
`top_k > vocab_size`. -/
def topkThreshold (logits : List ℚ) (k : ℕ) : Option ℚ :=
  (List.insertionSort (· ≥ ·) logits)[k - 1]?

/-- The `top_k > 0` branch of `top_k_logits` (lines 108–111): entries strictly
below the `top_k`-th largest value are set to `-inf` (`none`). -/
def topKStage (topK : ℕ) (logits : List ℚ) : Option (List (Option ℚ)) :=
  if 0 < topK then
    match topkThreshold logits topK with
    | none => none
    | some t => some (logits.map (fun v => if v < t then none else some v))
  else some (logits.map some)

/-- `torch.sort(logits, descending=True)` on a (possibly already `top_k`
filtered) row: the `(sorted_indices, sorted_logits)` pairs, descending by
value, stably. -/
def sortedPairs (fl : List (Option ℚ)) : List (ℕ × Option ℚ) :=
  List.insertionSort rDesc fl.enum

/-- The softmax weights of the sorted row (`F.softmax(sorted_logits)`
before normalisation). -/
def sortedWeights (E : ℚ → ℚ) (fl : List (Option ℚ)) : List ℚ :=
  (sortedPairs fl).map (fun q => optWeight E q.2)

/-- `F.softmax(sorted_logits, dim=-1)`. -/
def sortedProbs (E : ℚ → ℚ) (fl : List (Option ℚ)) : List ℚ :=
  (sortedPairs fl).map (fun q => optWeight E q.2 / (sortedWeights E fl).sum)

/-- `cumulative_probs = torch.cumsum(F.softmax(sorted_logits), dim=-1)`. -/
def cumProbs (E : ℚ → ℚ) (fl : List (Option ℚ)) : List ℚ :=
  cumsum (sortedProbs E fl)

/-- `sorted_indices_to_remove` after the right-shift that keeps the first
token above the threshold (lines 120–123). -/
def keepShiftMask (E : ℚ → ℚ) (topP : ℚ) (fl : List (Option ℚ)) : List Bool :=
  shiftMask ((cumProbs E fl).map (fun c => decide (topP < c)))

/-- `indices_to_remove = sorted_indices[sorted_indices_to_remove]`
(line 124): original positions whose sorted position is flagged. -/
def removedIdx (E : ℚ → ℚ) (topP : ℚ) (fl : List (Option ℚ)) : List ℕ :=
  ((sortedPairs fl).zip (keepShiftMask E topP fl)).filterMap
    (fun pr => if pr.2 = true then some pr.1.1 else none)

/-- The `top_p > 0` branch of `top_k_logits` (lines 113–127): sort
descending, cumulative softmax, remove the tokens whose predecessor's
cumulative probability already exceeds `top_p`. -/
def topPStage (E : ℚ → ℚ) (topP : ℚ) (fl : List (Option ℚ)) : List (Option ℚ) :=
  if 0 < topP then
    fl.enum.map (fun p => if p.1 ∈ removedIdx E topP fl then none else p.2)
  else fl

/-- `top_k_logits(logits, top_k, top_p)` from `inference_glm.py`
(lines 104–129), on one logits row. -/
def top_k_logits (E : ℚ → ℚ) (topK : ℕ) (topP : ℚ) (logits : List ℚ) :
    Option (List (Option ℚ)) :=
  (topKStage topK logits).map (topPStage E topP)

/-- Indices of the entries a filtered logits row keeps (those not `-inf`). -/
def keptIdxAux : List (Option ℚ) → ℕ → List ℕ
  | [], _ => []
  | none :: rest, i => keptIdxAux rest (i + 1)
  | some _ :: rest, i => i :: keptIdxAux rest (i + 1)

def keptIdx (l : List (Option ℚ)) : List ℕ := keptIdxAux l 0

/-- The pre-filter softmax probability of entry `i` of a logits row, with
the abstract exponential `E`. -/
def probOf (E : ℚ → ℚ) (logits : List ℚ) (i : ℕ) : ℚ :=
  E (logits.getD i 0) / (logits.map E).sum

/-! ### The single-beam sampling loop of `sample_sequence` (lines 132–227) -/

/-- Errors the decoding path can raise: the `NotImplementedError` that
`get_batch` raises on the non-block path (line 99), and a torch runtime
error (`torch.topk` with `k` out of range, or a degenerate multinomial). -/
inductive GenError where
  | notImplemented : GenError
  | torchError : GenError
deriving DecidableEq

instance {ε α : Type} [DecidableEq ε] [DecidableEq α] : DecidableEq (Except ε α) :=
  fun a b =>
    match a, b with
    | .error e, .error f =>
      if h : e = f then .isTrue (by rw [h])
      else .isFalse (by intro hh; cases hh; exact h rfl)
    | .error _, .ok _ => .isFalse (by intro h; cases h)
    | .ok _, .error _ => .isFalse (by intro h; cases h)
    | .ok x, .ok y =>
      if h : x = y then .isTrue (by rw [h])
      else .isFalse (by intro hh; cases hh; exact h rfl)

/-- The configuration fields of `args` that the single-beam sampling loop
reads. -/
structure Args where
  out_seq_length : ℕ
  temperature : ℚ
  top_k : ℕ
  top_p : ℚ
  block_lm : Bool

/-- One sampling step of the `num_beams == 1` branch (lines 206–210):
divide the logits by `temperature`, apply `top_k_logits`, softmax, and draw
one token with `torch.multinomial` (driven by the uniform draw `u`).
No parameter validation of any kind is performed. -/
def nextTokenStep (E : ℚ → ℚ) (temperature topP : ℚ) (topK : ℕ) (u : ℚ)
    (logits : List ℚ) : Option ℕ :=
  match top_k_logits E topK topP (logits.map (fun v => v / temperature)) with
  | none => none
  | some fl => multinomialPick (fl.map (optWeight E)) u

/-- The `while counter < args.out_seq_length` loop of `sample_sequence`
(lines 154–216) on the block-LM single-beam path: `fuel` is
`out_seq_length - counter`, `tokens` the generated row so far, and `model`
abstracts the forward call (the mems passed along encode exactly the
context plus the tokens generated so far).  A sampled token that is in
`endTokens` stops the loop **without being appended** (lines 211–213). -/
def sampleLoop (E : ℚ → ℚ) (rand : ℕ → ℚ) (model : List ℕ → List ℚ) (a : Args)
    (endTokens : List ℕ) (ctx : List ℕ) :
    ℕ → List ℕ → ℕ → Except GenError (List ℕ)
  | 0, tokens, _ => .ok tokens
  | fuel + 1, tokens, counter =>
    match nextTokenStep E a.temperature a.top_p a.top_k (rand counter)
        (model (ctx ++ tokens)) with
    | none => .error .torchError
    | some prev =>
      if prev ∈ endTokens then .ok tokens
      else sampleLoop E rand model a endTokens ctx fuel (tokens ++ [prev]) (counter + 1)

/-- `sample_sequence` (lines 132–227) for `num_beams == 1`.  On the block-LM
path the generated row starts from the single `sop` token (line 137) and
the function returns `torch.cat((context_tokens, tokens))` (line 227); on
the non-block path the first thing called is `get_batch`, which raises
`NotImplementedError`. -/
def sample_sequence (E : ℚ → ℚ) (rand : ℕ → ℚ) (model : List ℕ → List ℚ)
    (a : Args) (endTokens : List ℕ) (ctx : List ℕ) (sop : ℕ) :
    Except GenError (List ℕ) :=
  if a.block_lm = true then
    (sampleLoop E rand model a endTokens ctx a.out_seq_length [sop] 0).map
      (fun toks => ctx ++ toks)
  else .error .notImplemented

/-! ### Claim C9: determinism of greedy decoding (`chat_model.py`,
`stream_generate`, lines 320–355) -/

/-- `torch.argmax(probs, dim=-1)` on one row: index of the first maximal
entry. -/
def argmaxAux : List ℚ → ℕ → ℕ → ℚ → ℕ
  | [], _, best, _ => best
  | x :: xs, i, best, bestVal =>
    if bestVal < x then argmaxAux xs (i + 1) i x else argmaxAux xs (i + 1) best bestVal

def argmaxIdx : List ℚ → ℕ
  | [] => 0
  | x :: xs => argmaxAux xs 1 0 x

/-- The `while True` loop of `ChatModel.stream_generate` (lines 322–355) for
batch size 1: compute the next-token distribution (`probsOf` folds the
model forward, the logits processors and warpers, and the softmax — all
deterministic), then sample (`do_sample = True`, consuming one uniform draw
from `rand` per step) or take the argmax (`do_sample = False`); the chosen
token is always appended, and the loop stops once it is an eos token or the
total length reaches `maxLength` (the max-length stopping criterion).
`fuel` bounds the iteration count; `stream_generate` below supplies enough
fuel that the bound is never the reason to stop. -/
def streamGenLoop (doSample : Bool) (rand : ℕ → ℚ) (probsOf : List ℕ → List ℚ)
    (eosTokens : List ℕ) (maxLength : ℕ) : ℕ → List ℕ → List ℕ
  | fuel, inputIds =>
    let probs := probsOf inputIds
    let next := if doSample then (multinomialPick probs (rand inputIds.length)).getD 0
      else argmaxIdx probs
    let ids2 := inputIds ++ [next]
    if next ∈ eosTokens ∨ maxLength ≤ ids2.length then ids2
    else
      match fuel with
      | 0 => ids2
      | fuel + 1 => streamGenLoop doSample rand probsOf eosTokens maxLength fuel ids2

/-- `ChatModel.stream_generate` (final yielded value) for batch size 1. -/
def stream_generate (doSample : Bool) (rand : ℕ → ℚ) (probsOf : List ℕ → List ℚ)
    (eosTokens : List ℕ) (maxLength : ℕ) (inputIds : List ℕ) : List ℕ :=
  streamGenLoop doSample rand probsOf eosTokens maxLength maxLength inputIds

/-! ### Claim C7: the beam reorder step (lines 197–202, and
`ChatModel._reorder_cache`) -/

/-- Line 201: `tokens = torch.cat([tokens[beam_idx, :], beam_next_tokens],
dim=-1)` — gather the surviving rows by `beam_idx` and append each row's
next token. -/
def beamReorderTokens (tokens : List (List ℕ)) (nextToks beamIdx : List ℕ) :
    List (List ℕ) :=
  (beamIdx.zip nextToks).map (fun p => tokens.getD p.1 [] ++ [p.2])

/-- Line 202: `mems = [mem[beam_idx] for mem in mems]` — every cache layer
is gathered along the same `beam_idx` (exactly what
`ChatModel._reorder_cache` does per layer with `index_select`). -/
def beamReorderMems {M : Type} (dflt : M) (mems : List (List M)) (beamIdx : List ℕ) :
    List (List M) :=
  mems.map (fun mem => beamIdx.map (fun i => mem.getD i dflt))

/-! ### Claim C8: the broadcast protocol of `read_context` (lines 59–80) -/

/-- A broadcast on the model-parallel group, in emission order. -/
inductive BEvent where
  | flagEv (v : ℕ) : BEvent
  | lenEv (v : ℕ) : BEvent
  | toksEv (v : List ℕ) : BEvent
deriving DecidableEq

/-- Per-rank result of the synchronisation part of `read_context`: the
termination flag and, unless terminating, the context length and the
context tokens (`read_context` returns `(terminate, None, None, None)` when
the flag is set, line 65). -/
structure RCResult where
  terminate : ℕ
  ctxLen : Option ℕ
  toks : Option (List ℕ)
deriving DecidableEq

/-- A per-rank variable after a broadcast from `src`: every rank holds the
source's value. -/
def bcast {α : Type} (f : ℕ → α) (src : ℕ) : ℕ → α := fun _ => f src

/-- Lines 29 and 59–80 of `read_context` as straight-line code over
per-rank variables (`ℕ → α` maps rank to local value), rank 0 being the
model-parallel source.  First the termination flag is broadcast; if it is
set every rank returns at once (no length or token broadcast happens at
all); otherwise the context length is broadcast, non-source ranks allocate
`[0] * context_length` (line 75), and the context-token tensor is
broadcast.  Returns the ordered broadcast-event list and the per-rank
results. -/
def read_context_sync (terminate0 : ℕ) (ctx0 : List ℕ) :
    List BEvent × (ℕ → RCResult) :=
  let terminate : ℕ → ℕ := fun r => if r = 0 then terminate0 else 0
  let terminateB := bcast terminate 0
  let ev1 := [BEvent.flagEv (terminate 0)]
  if terminateB 0 = 1 then
    (ev1, fun r => ⟨terminateB r, none, none⟩)
  else
    let ctxLen : ℕ → ℕ := fun r => if r = 0 then ctx0.length else 0
    let ctxLenB := bcast ctxLen 0
    let ev2 := ev1 ++ [BEvent.lenEv (ctxLen 0)]
    let toks : ℕ → List ℕ := fun r => if r = 0 then ctx0 else List.replicate (ctxLenB r) 0
    let toksB := bcast toks 0
    let ev3 := ev2 ++ [BEvent.toksEv (toks 0)]
    (ev3, fun r => ⟨terminateB r, some (ctxLenB r), some (toksB r)⟩)

/-! ### Claim C6: block mode with no mask in the prompt
(`read_context`, lines 31–55) -/

/-- Boolean prefix test on character lists. -/
def isPrefixB : List Char → List Char → Bool
  | [], _ => true
  | _ :: _, [] => false
  | a :: as, b :: bs => if a = b then isPrefixB as bs else false

/-- Python's `pat in text` substring test. -/
def hasSubstr (pat : List Char) : List Char → Bool
  | [] => isPrefixB pat []
  | c :: rest => if isPrefixB pat (c :: rest) then true else hasSubstr pat rest

/-- Python's `text.endswith(pat)`. -/
def endsWithB (pat l : List Char) : Bool := isPrefixB pat.reverse l.reverse

/-- The generation mask literal: `[gMASK]` when `args.task_mask` is set, else
`[MASK]` (line 39). -/
def generationMask (taskMask : Bool) : List Char :=
  if taskMask then "[gMASK]".toList else "[MASK]".toList

/-- Outcome of one iteration of the rank-0 prompt loop of `read_context`. -/
inductive PromptOutcome where
  | emptyRetry : PromptOutcome
  | stopSession : PromptOutcome
  | tooLongRetry (len : ℕ) : PromptOutcome
  | accepted (rawText : List Char) (contextTokens : List ℕ) : PromptOutcome
deriving DecidableEq

/-- One iteration of the `while True` prompt loop of `read_context`
(lines 31–55): empty input retries; the literal `stop` terminates the
session; in block mode, when the text contains no `MASK]` substring the
generation mask is **appended** (lines 39–41) and processing continues;
then the text is tokenised (`encode`), in block mode prefixed with the
`ENC` command token and suffixed with `eos` unless the text ends in
`MASK]` (lines 44–48); finally a context at least as long as
`max_sequence_length` retries. -/
def read_context_prompt (blockLm taskMask : Bool) (encode : List Char → List ℕ)
    (encId eosId maxSeqLength : ℕ) (raw : List Char) : PromptOutcome :=
  if raw = [] then .emptyRetry
  else if raw = "stop".toList then .stopSession
  else
    let raw1 := if blockLm = true ∧ hasSubstr "MASK]".toList raw = false
      then raw ++ ' ' :: generationMask taskMask else raw
    let toks0 := encode raw1
    let toks1 := if blockLm = true
      then (encId :: toks0) ++ (if endsWithB "MASK]".toList raw1 = true then [] else [eosId])
      else toks0
    if maxSeqLength ≤ toks1.length then .tooLongRetry toks1.length
    else .accepted raw1 toks1

/-- The number of sorted positions (beyond the forced first one) whose
predecessor's cumulative probability is still within `top_p`; the nucleus
filter keeps exactly the sorted positions `0 … cutIdx`. -/
def cutIdx (E : ℚ → ℚ) (topP : ℚ) (logits : List ℚ) : ℕ :=
  (cumProbs E (logits.map some)).countP (fun x => decide (x ≤ topP))

/-- A concrete strictly monotone, everywhere-positive rational stand-in for
the exponential, used to instantiate `C2_nucleus_filter`. -/
def Ewit : ℚ → ℚ := fun q => if 0 ≤ q then q + 1 else 1 / (1 - q)

/-! ### Theorems: the ten claims and their supporting lemmas -/

/-! ### Facts about the `top_k` stage (claim C1) -/

lemma topPStage_topP_zero (E : ℚ → ℚ) (fl : List (Option ℚ)) :
    topPStage E 0 fl = fl := by
  simp [topPStage]

lemma sortDesc_length (l : List ℚ) :
    (List.insertionSort (· ≥ ·) l).length = l.length :=
  (List.perm_insertionSort (· ≥ ·) l).length_eq

lemma sortDesc_take_ge (l : List ℚ) (k : ℕ) (hk : 0 < k) (hkn : k ≤ l.length)
    (t : ℚ) (ht : (List.insertionSort (· ≥ ·) l)[k - 1]? = some t) :
    ∀ v ∈ (List.insertionSort (· ≥ ·) l).take k, t ≤ v := by
  intro v hv
  set s := List.insertionSort (· ≥ ·) l with hs
  have hslen : s.length = l.length := sortDesc_length l
  have hkle : k ≤ s.length := by omega
  have hk1 : k - 1 < s.length := by omega
  have htv : s[k - 1] = t := by
    have := List.getElem?_eq_getElem hk1
    rw [this] at ht
    exact Option.some.inj ht
  rcases List.mem_iff_getElem.mp hv with ⟨j, hj, hjv⟩
  have hjk : j < k := by
    have := List.length_take k s
    omega
  have hjs : j < s.length := by omega
  have hval : (s.take k)[j] = s[j] := List.getElem_take s
  have hsorted : s.Sorted (· ≥ ·) := List.sorted_insertionSort (· ≥ ·) l
  have hrel : s.get ⟨j, hjs⟩ ≥ s.get ⟨k - 1, hk1⟩ :=
    hsorted.rel_get_of_le (by simp [Fin.le_def]; omega)
  simp only [List.get_eq_getElem] at hrel
  rw [← hjv, hval, ← htv]
  exact hrel

lemma sortDesc_drop_lt (l : List ℚ) (k : ℕ) (hk : 0 < k) (hkn : k ≤ l.length)
    (hnd : l.Nodup)
    (t : ℚ) (ht : (List.insertionSort (· ≥ ·) l)[k - 1]? = some t) :
    ∀ v ∈ (List.insertionSort (· ≥ ·) l).drop k, v < t := by
  intro v hv
  set s := List.insertionSort (· ≥ ·) l with hs
  have hslen : s.length = l.length := sortDesc_length l
  have hk1 : k - 1 < s.length := by omega
  have htv : s[k - 1] = t := by
    have := List.getElem?_eq_getElem hk1
    rw [this] at ht
    exact Option.some.inj ht
  rcases List.mem_iff_getElem.mp hv with ⟨j, hj, hjv⟩
  have hjlen : k + j < s.length := by
    have := List.length_drop k s
    omega
  have hval : (s.drop k)[j] = s[k + j] := List.getElem_drop s
  have hsorted : s.Sorted (· ≥ ·) := List.sorted_insertionSort (· ≥ ·) l
  have hrel : s.get ⟨k - 1, hk1⟩ ≥ s.get ⟨k + j, hjlen⟩ :=
    hsorted.rel_get_of_le (by simp [Fin.le_def]; omega)
  simp only [List.get_eq_getElem] at hrel
  have hsnd : s.Nodup := (List.perm_insertionSort (· ≥ ·) l).symm.nodup hnd
  have hne : s[k + j] ≠ s[k - 1] := by
    intro heq
    have := (hsnd.getElem_inj_iff).mp heq
    omega
  rw [← hjv, hval, ← htv]
  exact lt_of_le_of_ne hrel hne

/-- Claim C1, counterexample: on the logits row `[1, 1, 1]` with
`top_k = 2`, the `top_k`-th largest value is `1` and nothing is strictly
below it, so all **three** entries stay unfiltered — not
`min(top_k, vocab_size) = 2`, and the tie is not broken by original order
(stable tie-breaking would have kept only the first two entries). -/
theorem C1_counterexample :
    top_k_logits (fun _ => 1) 2 0 [1, 1, 1] = some [some 1, some 1, some 1] ∧
    ¬ ([some (1 : ℚ), some 1, some 1].countP (fun o => o.isSome) = min 2 3) := by
  constructor
  · rfl
  · decide

/-- Claim C1, amended: for `0 < top_k ≤ vocab_size` the `top_k` branch of
`top_k_logits` keeps exactly the entries that are `≥` the `top_k`-th largest
value.  That is **at least** `top_k` entries, and exactly `top_k` when the
logits are pairwise distinct; when several entries tie with the `top_k`-th
largest value they are all kept (no tie-breaking of any kind).  When
`top_k > vocab_size` the call fails (`torch.topk` raises). -/
theorem C1_top_k_kept_count (E : ℚ → ℚ) (k : ℕ) (logits : List ℚ)
    (hk : 0 < k) (hkn : k ≤ logits.length) :
    ∃ out, top_k_logits E k 0 logits = some out ∧
      k ≤ out.countP (fun o => o.isSome) ∧
      (logits.Nodup → out.countP (fun o => o.isSome) = k) := by
  set s := List.insertionSort (· ≥ ·) logits with hs
  have hslen : s.length = logits.length := sortDesc_length logits
  have hk1 : k - 1 < s.length := by omega
  obtain ⟨t, ht⟩ : ∃ t, s[k - 1]? = some t :=
    ⟨s[k - 1], List.getElem?_eq_getElem hk1⟩
  have hstage : topKStage k logits =
      some (logits.map (fun v => if v < t then none else some v)) := by
    rw [topKStage, if_pos hk, topkThreshold, ← hs, ht]
  have hout : top_k_logits E k 0 logits =
      some (logits.map (fun v => if v < t then none else some v)) := by
    rw [top_k_logits, hstage, Option.map_some', topPStage_topP_zero]
  have hcnt : List.countP
        ((fun o => o.isSome) ∘ fun v => if v < t then none else some v) logits =
      List.countP (fun v => decide (t ≤ v)) logits := by
    apply List.countP_congr
    intro v _
    by_cases hvt : v < t
    · simp [Function.comp, hvt, not_le.mpr hvt]
    · simp [Function.comp, hvt, not_lt.mp hvt]
  have hperm : List.countP (fun v => decide (t ≤ v)) logits =
      List.countP (fun v => decide (t ≤ v)) s :=
    List.Perm.countP_eq _ (List.perm_insertionSort (· ≥ ·) logits).symm
  have hsplit : List.countP (fun v => decide (t ≤ v)) s =
      List.countP (fun v => decide (t ≤ v)) (s.take k) +
      List.countP (fun v => decide (t ≤ v)) (s.drop k) := by
    rw [← List.countP_append, List.take_append_drop]
  have hlen : (s.take k).length = k := by
    rw [List.length_take]; omega
  have htake : List.countP (fun v => decide (t ≤ v)) (s.take k) = k := by
    have hall : ∀ v ∈ s.take k, (fun v => decide (t ≤ v)) v = true :=
      fun v hv => by simpa using sortDesc_take_ge logits k hk hkn t ht v hv
    have hcp := List.countP_eq_length.mpr hall
    rw [hlen] at hcp
    exact hcp
  refine ⟨_, hout, ?_, ?_⟩ <;> rw [List.countP_map, hcnt, hperm, hsplit, htake]
  · omega
  · intro hnd
    have hdrop : List.countP (fun v => decide (t ≤ v)) (s.drop k) = 0 :=
      List.countP_eq_zero.mpr
        (fun v hv => by
          simpa using not_le.mpr (sortDesc_drop_lt logits k hk hkn hnd t ht v hv))
    omega

/-- Witness for `C1_top_k_kept_count` at a concrete input. -/
theorem C1_witness :
    ∃ out, top_k_logits (fun _ => 1) 2 0 [3, 1, 2] = some out ∧
      2 ≤ out.countP (fun o => o.isSome) ∧
      (([3, (1 : ℚ), 2] : List ℚ).Nodup → out.countP (fun o => o.isSome) = 2) :=
  C1_top_k_kept_count (fun _ => 1) 2 [3, 1, 2] (by decide) (by decide)

lemma sampleLoop_ok_spec (E : ℚ → ℚ) (rand : ℕ → ℚ) (model : List ℕ → List ℚ)
    (a : Args) (endTokens : List ℕ) (ctx : List ℕ) :
    ∀ (fuel : ℕ) (tokens : List ℕ) (counter : ℕ) (res : List ℕ),
      sampleLoop E rand model a endTokens ctx fuel tokens counter = .ok res →
      ∃ gen, res = tokens ++ gen ∧ gen.length ≤ fuel ∧
        (∀ t ∈ gen, t ∉ endTokens) ∧
        (gen.length < fuel → ∃ tk,
          nextTokenStep E a.temperature a.top_p a.top_k
            (rand (counter + gen.length)) (model (ctx ++ tokens ++ gen)) = some tk ∧
          tk ∈ endTokens) := by
  intro fuel
  induction fuel with
  | zero =>
    intro tokens counter res hres
    refine ⟨[], ?_, ?_, ?_, ?_⟩
    · simpa [sampleLoop] using (Except.ok.inj hres).symm
    · simp
    · simp
    · omega
  | succ fuel ih =>
    intro tokens counter res hres
    rw [sampleLoop] at hres
    cases hstep : nextTokenStep E a.temperature a.top_p a.top_k (rand counter)
        (model (ctx ++ tokens)) with
    | none => rw [hstep] at hres; exact absurd hres (by simp)
    | some prev =>
      rw [hstep] at hres
      replace hres : (if prev ∈ endTokens then (Except.ok tokens : Except GenError (List ℕ))
          else sampleLoop E rand model a endTokens ctx fuel (tokens ++ [prev]) (counter + 1)) =
          Except.ok res := hres
      by_cases hend : prev ∈ endTokens
      · rw [if_pos hend] at hres
        refine ⟨[], (Except.ok.inj hres).symm.trans (by simp), by simp, by simp, ?_⟩
        intro _
        exact ⟨prev, by simpa using hstep, hend⟩
      · rw [if_neg hend] at hres
        obtain ⟨gen, hgen, hlen, hmem, hstop⟩ := ih (tokens ++ [prev]) (counter + 1) res hres
        refine ⟨prev :: gen, by simpa using hgen, by simpa using Nat.succ_le_succ hlen, ?_, ?_⟩
        · intro t ht
          rcases List.mem_cons.mp ht with h | h
          · exact h ▸ hend
          · exact hmem t h
        · intro hlt
          have hlt2 : gen.length < fuel := by simpa using Nat.lt_of_succ_lt_succ hlt
          obtain ⟨tk, htk, htkend⟩ := hstop hlt2
          refine ⟨tk, ?_, htkend⟩
          have harg : counter + 1 + gen.length = counter + (prev :: gen).length := by
            simp; omega
          have hlist : ctx ++ (tokens ++ [prev]) ++ gen = ctx ++ tokens ++ (prev :: gen) := by
            simp
          rw [harg, hlist] at htk
          exact htk

/-- Claim C3: when the block-mode single-beam loop returns normally, the
result is the context followed by the `sop` marker and the generated
tokens; no generated token is an end token (a sampled end token stops the
loop **without** being appended), at most `out_seq_length` tokens are
generated (the loop stops when the generated length reaches
`out_seq_length`), and if fewer were generated the loop stopped precisely
because the next sampled token was an end token. -/
theorem C3_loop_termination (E : ℚ → ℚ) (rand : ℕ → ℚ) (model : List ℕ → List ℚ)
    (a : Args) (endTokens : List ℕ) (ctx : List ℕ) (sop : ℕ) (res : List ℕ)
    (hb : a.block_lm = true)
    (hres : sample_sequence E rand model a endTokens ctx sop = .ok res) :
    ∃ gen, res = ctx ++ sop :: gen ∧
      gen.length ≤ a.out_seq_length ∧
      (∀ t ∈ gen, t ∉ endTokens) ∧
      (gen.length < a.out_seq_length → ∃ tk,
        nextTokenStep E a.temperature a.top_p a.top_k (rand gen.length)
          (model (ctx ++ sop :: gen)) = some tk ∧ tk ∈ endTokens) := by
  rw [sample_sequence, if_pos hb] at hres
  cases hloop : sampleLoop E rand model a endTokens ctx a.out_seq_length [sop] 0 with
  | error e => rw [hloop] at hres; exact absurd hres (by simp [Except.map])
  | ok res0 =>
    rw [hloop] at hres
    have hres0 : res = ctx ++ res0 := (Except.ok.inj hres).symm
    obtain ⟨gen, hgen, hlen, hmem, hstop⟩ :=
      sampleLoop_ok_spec E rand model a endTokens ctx a.out_seq_length [sop] 0 res0 hloop
    refine ⟨gen, by simp [hres0, hgen], hlen, hmem, ?_⟩
    intro hlt
    obtain ⟨tk, htk, htkend⟩ := hstop hlt
    exact ⟨tk, by simpa using htk, htkend⟩

/-- Witness for `C3_loop_termination` at a concrete input: one token is
generated before the fuel runs out. -/
theorem C3_witness :
    ∃ gen, ([2, 7, 0] : List ℕ) = [2] ++ 7 :: gen ∧
      gen.length ≤ 1 ∧
      (∀ t ∈ gen, t ∉ ([5] : List ℕ)) ∧
      (gen.length < 1 → ∃ tk,
        nextTokenStep (fun _ => 1) 1 0 0 ((fun _ => (0 : ℚ)) gen.length)
          ((fun _ => [1, 5, 9]) ([2] ++ 7 :: gen)) = some tk ∧ tk ∈ ([5] : List ℕ)) :=
  C3_loop_termination (fun _ => 1) (fun _ => 0) (fun _ => [1, 5, 9])
    ⟨1, 1, 0, 0, true⟩ [5] [2] 7 [2, 7, 0] rfl
    (by norm_num [sample_sequence, sampleLoop, nextTokenStep, top_k_logits, topKStage,
      topkThreshold, topPStage, sortedPairs, sortedWeights, sortedProbs, cumProbs,
      keepShiftMask, removedIdx, multinomialPick, pickAux, optWeight, Except.map])

/-- Claim C10: whenever `sample_sequence` returns normally, the returned
row is the unchanged input context followed by the generated tokens — the
context prefix is never modified by the decoding loop. -/
theorem C10_context_prefix (E : ℚ → ℚ) (rand : ℕ → ℚ) (model : List ℕ → List ℚ)
    (a : Args) (endTokens : List ℕ) (ctx : List ℕ) (sop : ℕ) (res : List ℕ)
    (hres : sample_sequence E rand model a endTokens ctx sop = .ok res) :
    res.take ctx.length = ctx := by
  by_cases hb : a.block_lm = true
  · rw [sample_sequence, if_pos hb] at hres
    cases hloop : sampleLoop E rand model a endTokens ctx a.out_seq_length [sop] 0 with
    | error e => rw [hloop] at hres; exact absurd hres (by simp [Except.map])
    | ok res0 =>
      rw [hloop] at hres
      have hres0 : res = ctx ++ res0 := (Except.ok.inj hres).symm
      rw [hres0]
      exact List.take_left ctx res0
  · rw [sample_sequence, if_neg hb] at hres
    exact absurd hres (by simp)

/-- Witness for `C10_context_prefix` at a concrete input. -/
theorem C10_witness : ([4, 6, 8, 0] : List ℕ).take ([4, 6] : List ℕ).length = [4, 6] :=
  C10_context_prefix (fun _ => 1) (fun _ => 0) (fun _ => [1, 3, 9])
    ⟨1, 1, 0, 0, true⟩ [3] [4, 6] 8 [4, 6, 8, 0]
    (by norm_num [sample_sequence, sampleLoop, nextTokenStep, top_k_logits, topKStage,
      topkThreshold, topPStage, sortedPairs, sortedWeights, sortedProbs, cumProbs,
      keepShiftMask, removedIdx, multinomialPick, pickAux, optWeight, Except.map])

/-! ### Claim C4: the end-to-end scenario, and claim C5: parameter validation -/

lemma sampleLoop_break (E : ℚ → ℚ) (rand : ℕ → ℚ) (model : List ℕ → List ℚ)
    (a : Args) (endTokens : List ℕ) (ctx : List ℕ) (fuel counter : ℕ)
    (tokens : List ℕ) (prev : ℕ)
    (hstep : nextTokenStep E a.temperature a.top_p a.top_k (rand counter)
      (model (ctx ++ tokens)) = some prev)
    (hend : prev ∈ endTokens) :
    sampleLoop E rand model a endTokens ctx (fuel + 1) tokens counter = .ok tokens := by
  rw [sampleLoop, hstep]
  simp [hend]

/-- Claim C4, counterexample: with context `[5, 7, 2]`, `end_tokens = [0]`,
`out_seq_length = 4` and a mock model whose argmax is always token `0`
(realised with `top_k = 1`, so sampling surely picks the argmax), the loop
does terminate at step 1, but the sampled end token `0` is **not** appended
(lines 211–213): on the block-LM path the result is `[5, 7, 2, 9]` (context
followed by the `sop` marker, here `9`), not `[5, 7, 2, 0]`; on the
non-block path `sample_sequence` does not even run (`get_batch` raises
`NotImplementedError`). -/
theorem C4_counterexample :
    sample_sequence (fun _ => 1) (fun _ => 0) (fun _ => [5, 1, 1])
      ⟨4, 1, 1, 0, true⟩ [0] [5, 7, 2] 9 = .ok [5, 7, 2, 9] ∧
    ([5, 7, 2, 9] : List ℕ) ≠ [5, 7, 2, 0] ∧
    sample_sequence (fun _ => 1) (fun _ => 0) (fun _ => [5, 1, 1])
      ⟨4, 1, 1, 0, false⟩ [0] [5, 7, 2] 9 = .error .notImplemented := by
  refine ⟨?_, by decide, by rfl⟩
  norm_num [sample_sequence, sampleLoop, nextTokenStep, top_k_logits, topKStage,
    topkThreshold, topPStage, List.insertionSort, List.orderedInsert,
    multinomialPick, pickAux, optWeight, Except.map]

/-- Claim C4, amended: in the scenario of the claim (context `[5, 7, 2]`,
`end_tokens = [0]`, `out_seq_length = 4`, a model whose argmax is always
token `0`, selected surely via `top_k = 1`), the loop terminates at step 1
with the end token discarded, so the resulting sequence is the context
followed by the `sop` marker only: `[5, 7, 2, 9]` for `sop = 9` — for any
positive exponential `E` and any uniform draw in `[0, 1)`. -/
theorem C4_scenario (E : ℚ → ℚ) (rand : ℕ → ℚ) (hE : ∀ x, 0 < E x)
    (_hu0 : 0 ≤ rand 0) (hu1 : rand 0 < 1) :
    sample_sequence E rand (fun _ => [5, 1, 1]) ⟨4, 1, 1, 0, true⟩ [0] [5, 7, 2] 9 =
      .ok [5, 7, 2, 9] := by
  have hmap : ([5, 1, 1] : List ℚ).map (fun v => v / 1) = [5, 1, 1] := by norm_num
  have hstage : topKStage 1 [5, 1, 1] = some [some 5, none, none] := by
    norm_num [topKStage, topkThreshold, List.insertionSort, List.orderedInsert]
  have htkl : top_k_logits E 1 0 (([5, 1, 1] : List ℚ).map (fun v => v / 1)) =
      some [some 5, none, none] := by
    rw [hmap, top_k_logits, hstage, Option.map_some', topPStage_topP_zero]
  have hweights : ([some 5, none, none] : List (Option ℚ)).map (optWeight E) =
      [E 5, 0, 0] := by
    simp [optWeight]
  have hsum : ([E 5, 0, 0] : List ℚ).sum = E 5 := by simp
  have hpick : multinomialPick [E 5, 0, 0] (rand 0) = some 0 := by
    rw [multinomialPick, hsum, pickAux]
    exact if_pos (mul_lt_of_lt_one_left (hE 5) hu1)
  have hstep : nextTokenStep E 1 0 1 (rand 0) [5, 1, 1] = some 0 := by
    rw [nextTokenStep, htkl]
    show multinomialPick (([some 5, none, none] : List (Option ℚ)).map (optWeight E))
      (rand 0) = some 0
    rw [hweights]
    exact hpick
  have hloop : sampleLoop E rand (fun _ => [5, 1, 1]) ⟨4, 1, 1, 0, true⟩ [0]
      [5, 7, 2] 4 [9] 0 = .ok [9] :=
    sampleLoop_break E rand (fun _ => [5, 1, 1]) ⟨4, 1, 1, 0, true⟩ [0] [5, 7, 2]
      3 0 [9] 0 hstep (by decide)
  have hfinal : sample_sequence E rand (fun _ => [5, 1, 1]) ⟨4, 1, 1, 0, true⟩ [0]
      [5, 7, 2] 9 =
      Except.map (fun toks => [5, 7, 2] ++ toks)
        (sampleLoop E rand (fun _ => [5, 1, 1]) ⟨4, 1, 1, 0, true⟩ [0] [5, 7, 2]
          4 [9] 0) := rfl
  rw [hfinal, hloop]
  rfl

/-- Witness for `C4_scenario` at a concrete exponential and draw. -/
theorem C4_witness :
    sample_sequence (fun _ => 2) (fun _ => 1 / 2) (fun _ => [5, 1, 1])
      ⟨4, 1, 1, 0, true⟩ [0] [5, 7, 2] 9 = .ok [5, 7, 2, 9] :=
  C4_scenario (fun _ => 2) (fun _ => 1 / 2) (fun _ => by norm_num)
    (by norm_num) (by norm_num)

lemma pickAux_total (w : List ℚ) :
    ∀ (target : ℚ) (i : ℕ), 0 ≤ target → target < w.sum →
      ∃ j, pickAux w target i = some j := by
  induction w with
  | nil =>
    intro target i h0 hlt
    rw [List.sum_nil] at hlt
    exact absurd hlt (not_lt.mpr h0)
  | cons x ws ih =>
    intro target i h0 hlt
    by_cases hx : target < x
    · exact ⟨i, by rw [pickAux, if_pos hx]⟩
    · push_neg at hx
      have h0x : (0 : ℚ) ≤ target - x := by linarith
      have hltx : target - x < ws.sum := by
        rw [List.sum_cons] at hlt
        linarith
      obtain ⟨j, hj⟩ := ih (target - x) (i + 1) h0x hltx
      exact ⟨j, by rw [pickAux, if_neg (not_lt.mpr hx)]; exact hj⟩

lemma multinomialPick_total (w : List ℚ) (u : ℚ) (hw : ∀ x ∈ w, 0 < x)
    (hne : w ≠ []) (hu0 : 0 ≤ u) (hu1 : u < 1) :
    ∃ j, multinomialPick w u = some j := by
  have hsum : 0 < w.sum := List.sum_pos w hw hne
  exact pickAux_total w (u * w.sum) 0 (mul_nonneg hu0 hsum.le)
    (mul_lt_of_lt_one_left hsum hu1)

lemma cumsum_le_sum (l : List ℚ) (hl : ∀ x ∈ l, 0 ≤ x) :
    ∀ c ∈ cumsum l, c ≤ l.sum := by
  induction l with
  | nil => intro c hc; simp [cumsum] at hc
  | cons x xs ih =>
    intro c hc
    rw [cumsum] at hc
    rw [List.sum_cons]
    rcases List.mem_cons.mp hc with h | h
    · have : (0 : ℚ) ≤ xs.sum := List.sum_nonneg (fun y hy => hl y (List.mem_cons_of_mem x hy))
      rw [h]
      linarith
    · rcases List.mem_map.mp h with ⟨y, hy, hxy⟩
      have := ih (fun z hz => hl z (List.mem_cons_of_mem x hz)) y hy
      rw [← hxy]
      linarith

lemma sum_map_div_self (w : List ℚ) (hw : ∀ x ∈ w, 0 ≤ x) :
    (w.map (fun x => x / w.sum)).sum ≤ 1 := by
  rcases eq_or_lt_of_le (List.sum_nonneg hw) with h0 | hpos
  · have : ∀ x ∈ w.map (fun x => x / w.sum), x = 0 := by
      intro x hx
      rcases List.mem_map.mp hx with ⟨y, hy, hxy⟩
      rw [← hxy, ← h0, div_zero]
    rw [List.sum_eq_zero this]
    norm_num
  · have heq : (w.map (fun x => x / w.sum)).sum = w.sum / w.sum := by
      have h1 : (w.map (fun x => x / w.sum)).sum =
          (w.map (fun x => x * (w.sum)⁻¹)).sum := by
        simp [div_eq_mul_inv]
      have h2 : (w.map (fun x => x * (w.sum)⁻¹)).sum =
          (w.map id).sum * (w.sum)⁻¹ := List.sum_map_mul_right w id (w.sum)⁻¹
      rw [h1, h2, List.map_id, div_eq_mul_inv]
    rw [heq, div_self (ne_of_gt hpos)]

lemma sortedWeights_nonneg (E : ℚ → ℚ) (hE : ∀ x, 0 < E x) (fl : List (Option ℚ)) :
    ∀ x ∈ sortedWeights E fl, 0 ≤ x := by
  intro x hx
  rcases List.mem_map.mp hx with ⟨q, _, hq⟩
  rw [← hq]
  cases hsnd : q.2 with
  | none => simp [optWeight]
  | some v => simp [optWeight, (hE v).le]

lemma cumProbs_le_one (E : ℚ → ℚ) (hE : ∀ x, 0 < E x) (fl : List (Option ℚ)) :
    ∀ c ∈ cumProbs E fl, c ≤ 1 := by
  intro c hc
  have hprobs : sortedProbs E fl = (sortedWeights E fl).map
      (fun x => x / (sortedWeights E fl).sum) := by
    rw [sortedProbs, sortedWeights, List.map_map]
    rfl
  have hwnn := sortedWeights_nonneg E hE fl
  have hnn : ∀ x ∈ sortedProbs E fl, 0 ≤ x := by
    intro x hx
    rw [hprobs] at hx
    rcases List.mem_map.mp hx with ⟨y, hy, hxy⟩
    rw [← hxy]
    exact div_nonneg (hwnn y hy) (List.sum_nonneg hwnn)
  have hle := cumsum_le_sum (sortedProbs E fl) hnn c hc
  have hsle : (sortedProbs E fl).sum ≤ 1 := by
    rw [hprobs]
    exact sum_map_div_self (sortedWeights E fl) hwnn
  linarith

lemma shiftMask_replicate_false (n : ℕ) :
    shiftMask (List.replicate n false) = List.replicate n false := by
  cases n with
  | zero => rfl
  | succ m =>
    rw [List.replicate_succ, shiftMask]
    rw [← List.replicate_succ, List.dropLast_replicate]
    rfl

lemma removedIdx_nil_of_one_lt (E : ℚ → ℚ) (topP : ℚ) (fl : List (Option ℚ))
    (hE : ∀ x, 0 < E x) (hp : 1 < topP) :
    removedIdx E topP fl = [] := by
  have hmask : (cumProbs E fl).map (fun c => decide (topP < c)) =
      List.replicate (cumProbs E fl).length false := by
    rw [List.eq_replicate_iff]
    refine ⟨List.length_map _ _, ?_⟩
    intro b hb
    rcases List.mem_map.mp hb with ⟨c, hc, hbc⟩
    have := cumProbs_le_one E hE fl c hc
    rw [← hbc]
    simp only [decide_eq_false_iff_not, not_lt]
    linarith
  rw [removedIdx, keepShiftMask, hmask, shiftMask_replicate_false]
  rw [List.filterMap_eq_nil_iff]
  intro pr hpr
  have := (List.of_mem_zip hpr).2
  rw [List.mem_replicate] at this
  simp [this.2]

lemma topPStage_id_of_one_lt (E : ℚ → ℚ) (topP : ℚ) (fl : List (Option ℚ))
    (hE : ∀ x, 0 < E x) (hp : 1 < topP) :
    topPStage E topP fl = fl := by
  rw [topPStage, if_pos (lt_trans zero_lt_one hp),
    removedIdx_nil_of_one_lt E topP fl hE hp]
  simp [List.enum_map_snd]

/-- Claim C5, counterexample: the sampling step of `sample_sequence`
(lines 206–210) performs no parameter validation at all: with the invalid
`temperature = -1`, and likewise with the out-of-range `top_p = 7`, it
normally computes and returns a sampled token (`some 0` here) instead of
raising anything — and no `InvalidSamplingParameterError` exists anywhere
in the code. -/
theorem C5_counterexample :
    nextTokenStep (fun _ => 1) (-1) 0 0 0 [1, 2] = some 0 ∧
    nextTokenStep (fun _ => 1) 1 7 0 0 [1, 2] = some 0 := by
  constructor <;>
    norm_num [nextTokenStep, top_k_logits, topKStage, topkThreshold, topPStage,
      sortedPairs, sortedWeights, sortedProbs, cumProbs, keepShiftMask, removedIdx,
      List.insertionSort, List.orderedInsert, rDesc, oLe, cumsum, shiftMask,
      multinomialPick, pickAux, optWeight, List.enum]

/-- Claim C5, amended: the sampling step validates nothing.  For any
negative `temperature` and any `top_p` outside `(0, 1]` (non-positive, or
greater than `1`), the step `logits / temperature → top_k_logits → softmax
→ multinomial` completes normally and returns a token; no
`InvalidSamplingParameterError` (or error of any kind) is raised.
(`temperature = 0` is outside this model: in the float code it yields
`±inf` logits by division by zero, again with no such error class.) -/
theorem C5_no_validation (E : ℚ → ℚ) (u temperature topP : ℚ) (logits : List ℚ)
    (hE : ∀ x, 0 < E x) (hu0 : 0 ≤ u) (hu1 : u < 1) (hne : logits ≠ [])
    (_htemp : temperature < 0) (htp : topP ≤ 0 ∨ 1 < topP) :
    ∃ tk, nextTokenStep E temperature topP 0 u logits = some tk := by
  set l2 := logits.map (fun v => v / temperature) with hl2
  have hl2ne : l2 ≠ [] := by
    rw [hl2]
    intro h
    exact hne (List.map_eq_nil_iff.mp h)
  have hstage : topKStage 0 l2 = some (l2.map some) := by
    rw [topKStage]
    simp
  have hid : topPStage E topP (l2.map some) = l2.map some := by
    rcases htp with h | h
    · rw [topPStage, if_neg (by linarith)]
    · exact topPStage_id_of_one_lt E topP (l2.map some) hE h
  have htkl : top_k_logits E 0 topP l2 = some (l2.map some) := by
    rw [top_k_logits, hstage, Option.map_some', hid]
  have hweights : (l2.map some).map (optWeight E) = l2.map E := by
    rw [List.map_map]
    rfl
  have hpos : ∀ x ∈ l2.map E, 0 < x := by
    intro x hx
    rcases List.mem_map.mp hx with ⟨y, _, hxy⟩
    rw [← hxy]
    exact hE y
  have hwne : l2.map E ≠ [] := by
    intro h
    exact hl2ne (List.map_eq_nil_iff.mp h)
  obtain ⟨j, hj⟩ := multinomialPick_total (l2.map E) u hpos hwne hu0 hu1
  refine ⟨j, ?_⟩
  rw [nextTokenStep, ← hl2, htkl]
  show multinomialPick ((l2.map some).map (optWeight E)) u = some j
  rw [hweights]
  exact hj

/-- Witness for `C5_no_validation` at a concrete invalid parameter pair. -/
theorem C5_witness :
    ∃ tk, nextTokenStep (fun _ => 1) (-2) 5 0 (1 / 3) [4, 8] = some tk :=
  C5_no_validation (fun _ => 1) (1 / 3) (-2) 5 [4, 8] (fun _ => by norm_num)
    (by norm_num) (by norm_num) (by decide) (by norm_num) (Or.inr (by norm_num))

lemma streamGenLoop_greedy_rand_irrel (rand1 rand2 : ℕ → ℚ)
    (probsOf : List ℕ → List ℚ) (eosTokens : List ℕ) (maxLength : ℕ) :
    ∀ (fuel : ℕ) (inputIds : List ℕ),
      streamGenLoop false rand1 probsOf eosTokens maxLength fuel inputIds =
      streamGenLoop false rand2 probsOf eosTokens maxLength fuel inputIds := by
  intro fuel
  induction fuel with
  | zero =>
    intro inputIds
    rw [streamGenLoop, streamGenLoop]
    simp only [Bool.false_eq_true, if_false]
  | succ fuel ih =>
    intro inputIds
    rw [streamGenLoop, streamGenLoop]
    simp only [Bool.false_eq_true, if_false]
    by_cases hstop : argmaxIdx (probsOf inputIds) ∈ eosTokens ∨
        maxLength ≤ (inputIds ++ [argmaxIdx (probsOf inputIds)]).length
    · rw [if_pos hstop, if_pos hstop]
    · rw [if_neg hstop, if_neg hstop]
      exact ih _

/-- Claim C9: greedy decoding (`do_sample = False`, single sequence) is
deterministic — the random stream is never consulted, so two runs of
`stream_generate` on the same context, with arbitrary (different) random
streams, yield the same output token sequence. -/
theorem C9_greedy_deterministic (rand1 rand2 : ℕ → ℚ) (probsOf : List ℕ → List ℚ)
    (eosTokens : List ℕ) (maxLength : ℕ) (inputIds : List ℕ) :
    stream_generate false rand1 probsOf eosTokens maxLength inputIds =
    stream_generate false rand2 probsOf eosTokens maxLength inputIds := by
  rw [stream_generate, stream_generate]
  exact streamGenLoop_greedy_rand_irrel rand1 rand2 probsOf eosTokens maxLength
    maxLength inputIds

/-- Claim C7: after the expansion/prune step, the `j`-th surviving
hypothesis's token row is `tokens[beam_idx[j]] ++ [next_token[j]]`, and in
**every** mems layer its cache slice is `mem[beam_idx[j]]` — the same
`beam_idx` reorders the token rows and every layer of the cache, so each
surviving hypothesis's cache matches its recorded token lineage. -/
theorem C7_beam_cache_lineage {M : Type} (dflt : M) (tokens : List (List ℕ))
    (mems : List (List M)) (nextToks beamIdx : List ℕ) (j L : ℕ)
    (hj : j < beamIdx.length) (hlen : beamIdx.length = nextToks.length)
    (hL : L < mems.length) :
    (beamReorderTokens tokens nextToks beamIdx).getD j [] =
      tokens.getD (beamIdx.getD j 0) [] ++ [nextToks.getD j 0] ∧
    ((beamReorderMems dflt mems beamIdx).getD L []).getD j dflt =
      (mems.getD L []).getD (beamIdx.getD j 0) dflt := by
  have hjz : j < (beamIdx.zip nextToks).length := by
    rw [List.length_zip]
    omega
  have hjn : j < nextToks.length := by omega
  have hjm : j < ((beamIdx.zip nextToks).map
      (fun p => tokens.getD p.1 [] ++ [p.2])).length := by
    rw [List.length_map]
    exact hjz
  constructor
  · rw [beamReorderTokens, List.getD_eq_getElem _ _ hjm, List.getElem_map]
    rw [List.getElem_zip, List.getD_eq_getElem _ _ hj, List.getD_eq_getElem _ _ hjn]
  · have hLm : L < (mems.map (fun mem => beamIdx.map (fun i => mem.getD i dflt))).length := by
      rw [List.length_map]
      exact hL
    have hjb : j < (beamIdx.map (fun i => (mems[L]).getD i dflt)).length := by
      rw [List.length_map]
      exact hj
    rw [beamReorderMems, List.getD_eq_getElem _ _ hLm, List.getElem_map,
      List.getD_eq_getElem _ _ hjb, List.getElem_map,
      List.getD_eq_getElem _ _ hL, List.getD_eq_getElem _ _ hj]

/-- Witness for `C7_beam_cache_lineage` at a concrete beam state. -/
theorem C7_witness :
    (beamReorderTokens [[1], [2]] [7, 8] [1, 0]).getD 0 [] =
      ([[1], [2]] : List (List ℕ)).getD (([1, 0] : List ℕ).getD 0 0) [] ++
        [([7, 8] : List ℕ).getD 0 0] ∧
    ((beamReorderMems 0 [[10, 20]] [1, 0]).getD 0 []).getD 0 0 =
      (([[10, 20]] : List (List ℕ)).getD 0 []).getD (([1, 0] : List ℕ).getD 0 0) 0 :=
  C7_beam_cache_lineage 0 [[1], [2]] [[10, 20]] [7, 8] [1, 0] 0 0
    (by decide) (by decide) (by decide)

/-- Claim C8: `read_context` broadcasts in the fixed order flag → length →
tokens, stops after the flag alone when it is set, and afterwards every
rank holds identical termination flag, context length and context tokens
(namely the values held by rank 0). -/
theorem C8_broadcast_protocol (terminate0 : ℕ) (ctx0 : List ℕ) :
    ((read_context_sync terminate0 ctx0).1 =
      if terminate0 = 1 then [BEvent.flagEv 1]
      else [BEvent.flagEv terminate0, BEvent.lenEv ctx0.length, BEvent.toksEv ctx0]) ∧
    (∀ r r2 : ℕ, (read_context_sync terminate0 ctx0).2 r =
      (read_context_sync terminate0 ctx0).2 r2) ∧
    (∀ r : ℕ, (read_context_sync terminate0 ctx0).2 r =
      if terminate0 = 1 then ⟨terminate0, none, none⟩
      else ⟨terminate0, some ctx0.length, some ctx0⟩) := by
  by_cases h : terminate0 = 1
  · refine ⟨?_, ?_, ?_⟩ <;> simp [read_context_sync, bcast, h]
  · refine ⟨?_, ?_, ?_⟩ <;> simp [read_context_sync, bcast, h]

lemma isPrefixB_append (p : List Char) :
    ∀ x y : List Char, isPrefixB p x = true → isPrefixB p (x ++ y) = true := by
  induction p with
  | nil => intro x y _; simp [isPrefixB]
  | cons a as ih =>
    intro x y hx
    cases x with
    | nil => simp [isPrefixB] at hx
    | cons b bs =>
      simp only [List.cons_append, isPrefixB] at hx ⊢
      by_cases hab : a = b
      · rw [if_pos hab] at hx ⊢
        exact ih bs y hx
      · rw [if_neg hab] at hx
        simp at hx

lemma endsWithB_append (p l s : List Char) (h : endsWithB p s = true) :
    endsWithB p (l ++ s) = true := by
  rw [endsWithB, List.reverse_append]
  exact isPrefixB_append p.reverse s.reverse l.reverse h

/-- Claim C6, counterexample: in block mode, a prompt containing no mask
token (`"hello"`) does **not** fail — `read_context` appends the generation
mask to the text and proceeds to tokenise and accept it (no
`InvalidPromptError` exists anywhere in the code). -/
theorem C6_counterexample :
    read_context_prompt true false (fun _ => [5]) 1 2 100 "hello".toList =
      .accepted ("hello [MASK]").toList [1, 5] := by decide

/-- Claim C6, amended: in block mode, when the raw prompt contains no
`MASK]` substring, `read_context` does not fail: it appends the generation
mask (`[gMASK]` under `task_mask`, else `[MASK]`) to the text and proceeds,
accepting the prompt with tokens `ENC :: encode(text')` (no `eos` is
appended since the text now ends in `MASK]`), provided it passes the
ordinary length check.  The only prompt failures are empty input, the
`stop` sentinel, and over-long context — all retried, none an error. -/
theorem C6_mask_appended (taskMask : Bool) (encode : List Char → List ℕ)
    (encId eosId maxSeqLength : ℕ) (raw : List Char)
    (hmask : hasSubstr "MASK]".toList raw = false)
    (hne : raw ≠ []) (hstop : raw ≠ "stop".toList)
    (hlen : (encId :: encode (raw ++ ' ' :: generationMask taskMask)).length
      < maxSeqLength) :
    read_context_prompt true taskMask encode encId eosId maxSeqLength raw =
      .accepted (raw ++ ' ' :: generationMask taskMask)
        (encId :: encode (raw ++ ' ' :: generationMask taskMask)) := by
  have hends : endsWithB "MASK]".toList (' ' :: generationMask taskMask) = true := by
    cases taskMask <;> decide
  have hends2 : endsWithB "MASK]".toList (raw ++ ' ' :: generationMask taskMask) = true :=
    endsWithB_append _ raw _ hends
  rw [read_context_prompt, if_neg hne, if_neg hstop]
  simp only [hmask, hends2, eq_self_iff_true, true_and, and_self, if_true,
    List.append_nil]
  rw [if_neg (not_le.mpr hlen)]

/-- Witness for `C6_mask_appended` at a concrete prompt. -/
theorem C6_witness :
    read_context_prompt true false (fun _ => [5]) 1 2 100 "hi".toList =
      .accepted ("hi".toList ++ ' ' :: generationMask false) (1 :: [5]) :=
  C6_mask_appended false (fun _ => [5]) 1 2 100 "hi".toList (by decide) (by decide)
    (by decide) (by decide)

/-! ### Claim C2: structure of the `top_p` (nucleus) filter -/

lemma cumsum_length (l : List ℚ) : (cumsum l).length = l.length := by
  induction l with
  | nil => rfl
  | cons x xs ih => rw [cumsum]; simp [ih]

lemma cumsum_getD (l : List ℚ) :
    ∀ j, j < l.length → (cumsum l).getD j 0 = (l.take (j + 1)).sum := by
  induction l with
  | nil => intro j hj; simp at hj
  | cons x xs ih =>
    intro j hj
    cases j with
    | zero => rw [cumsum]; simp
    | succ j =>
      rw [cumsum]
      have hjx : j < xs.length := by simpa using hj
      have hjc : j < (cumsum xs).length := by rw [cumsum_length]; exact hjx
      have hmap : ((cumsum xs).map (fun y => x + y)).getD j 0 = x + (cumsum xs).getD j 0 := by
        have hjm : j < ((cumsum xs).map (fun y => x + y)).length := by
          rw [List.length_map]; exact hjc
        rw [List.getD_eq_getElem _ _ hjm, List.getElem_map, List.getD_eq_getElem _ _ hjc]
      have : ((x :: xs).take (j + 2)).sum = x + (xs.take (j + 1)).sum := by
        rw [List.take_succ_cons, List.sum_cons]
      rw [List.getD_cons_succ, hmap, ih j hjx, this]

lemma cumsum_mem_nonneg (l : List ℚ) (hl : ∀ x ∈ l, 0 ≤ x) :
    ∀ c ∈ cumsum l, 0 ≤ c := by
  induction l with
  | nil => intro c hc; simp [cumsum] at hc
  | cons x xs ih =>
    intro c hc
    rw [cumsum] at hc
    have hx : 0 ≤ x := hl x (List.mem_cons_self x xs)
    rcases List.mem_cons.mp hc with h | h
    · rw [h]; exact hx
    · rcases List.mem_map.mp h with ⟨y, hy, hxy⟩
      have := ih (fun z hz => hl z (List.mem_cons_of_mem x hz)) y hy
      rw [← hxy]
      linarith

lemma cumsum_pairwise_le (l : List ℚ) (hl : ∀ x ∈ l, 0 ≤ x) :
    (cumsum l).Pairwise (· ≤ ·) := by
  induction l with
  | nil => exact List.Pairwise.nil
  | cons x xs ih =>
    rw [cumsum]
    refine List.Pairwise.cons ?_ ?_
    · intro y hy
      rcases List.mem_map.mp hy with ⟨z, hz, hzy⟩
      have := cumsum_mem_nonneg xs (fun w hw => hl w (List.mem_cons_of_mem x hw)) z hz
      rw [← hzy]
      linarith
    · exact List.Pairwise.map _ (fun a b hab => by linarith)
        (ih (fun w hw => hl w (List.mem_cons_of_mem x hw)))

lemma cumsum_sum_mem (l : List ℚ) (hne : l ≠ []) : l.sum ∈ cumsum l := by
  induction l with
  | nil => exact absurd rfl hne
  | cons x xs ih =>
    rw [cumsum, List.sum_cons]
    by_cases hxs : xs = []
    · subst hxs
      simp [cumsum]
    · exact List.mem_cons_of_mem _ (List.mem_map.mpr ⟨xs.sum, ih hxs, rfl⟩)

lemma mono_flags (c : List ℚ) (p : ℚ) (hc : c.Pairwise (· ≤ ·)) :
    c.map (fun x => decide (p < x)) =
      List.replicate (c.countP (fun x => decide (x ≤ p))) false ++
      List.replicate (c.length - c.countP (fun x => decide (x ≤ p))) true := by
  induction c with
  | nil => rfl
  | cons x xs ih =>
    have hx : ∀ y ∈ xs, x ≤ y := fun y hy => List.rel_of_pairwise_cons hc hy
    have hxs : xs.Pairwise (· ≤ ·) := hc.of_cons
    by_cases hxp : x ≤ p
    · have hdx : decide (p < x) = false := by
        simp only [decide_eq_false_iff_not, not_lt]
        exact hxp
      have hcx : List.countP (fun x => decide (x ≤ p)) (x :: xs) =
          List.countP (fun x => decide (x ≤ p)) xs + 1 := by
        rw [List.countP_cons_of_pos]
        simpa using hxp
      rw [List.map_cons, hdx, hcx, ih hxs]
      have hlen : (x :: xs).length - (List.countP (fun x => decide (x ≤ p)) xs + 1) =
          xs.length - List.countP (fun x => decide (x ≤ p)) xs := by
        have := @List.countP_le_length ℚ (fun x => decide (x ≤ p)) xs
        simp only [List.length_cons]
        omega
      rw [hlen, List.replicate_succ, List.cons_append]
    · push_neg at hxp
      have hall : ∀ y ∈ x :: xs, p < y := by
        intro y hy
        rcases List.mem_cons.mp hy with h | h
        · rw [h]; exact hxp
        · exact lt_of_lt_of_le hxp (hx y h)
      have hcnt : List.countP (fun x => decide (x ≤ p)) (x :: xs) = 0 := by
        rw [List.countP_eq_zero]
        intro a ha
        simpa using not_le.mpr (hall a ha)
      rw [hcnt]
      rw [List.replicate_zero, List.nil_append, Nat.sub_zero]
      rw [List.eq_replicate_iff]
      refine ⟨by simp, ?_⟩
      intro b hb
      rcases List.mem_map.mp hb with ⟨y, hy, hby⟩
      rw [← hby]
      simpa using hall y hy

lemma shiftMask_of_ne_nil (l : List Bool) (h : l ≠ []) :
    shiftMask l = false :: l.dropLast := by
  cases l with
  | nil => exact absurd rfl h
  | cons x xs => rfl

lemma shiftMask_rep (a b : ℕ) (hb : 0 < b) :
    shiftMask (List.replicate a false ++ List.replicate b true) =
      List.replicate (a + 1) false ++ List.replicate (b - 1) true := by
  obtain ⟨c, rfl⟩ : ∃ c, b = c + 1 := ⟨b - 1, by omega⟩
  rw [List.replicate_succ' c true, ← List.append_assoc]
  rw [shiftMask_of_ne_nil _ (by simp), List.dropLast_concat]
  rw [List.replicate_succ, List.cons_append]
  simp

lemma zip_rep_false_filterMap (xs : List (ℕ × Option ℚ)) (c : ℕ) :
    (xs.zip (List.replicate c false)).filterMap
      (fun pr => if pr.2 = true then some pr.1.1 else none) = [] := by
  rw [List.filterMap_eq_nil_iff]
  intro pr hpr
  have h2 := (List.of_mem_zip hpr).2
  rw [List.mem_replicate] at h2
  simp [h2.2]

lemma zip_rep_true_filterMap (xs : List (ℕ × Option ℚ)) :
    ∀ c, xs.length = c →
      (xs.zip (List.replicate c true)).filterMap
        (fun pr => if pr.2 = true then some pr.1.1 else none) = xs.map Prod.fst := by
  induction xs with
  | nil => intro c _; simp
  | cons x xs ih =>
    intro c hc
    cases c with
    | zero => simp at hc
    | succ c =>
      rw [List.replicate_succ, List.zip_cons_cons, List.filterMap_cons]
      rw [ih c (by simpa using hc)]
      simp

lemma keptIdxAux_mem (L : List (Option ℚ)) :
    ∀ s i, i ∈ keptIdxAux L s ↔ ∃ j, i = s + j ∧ (L.getD j none).isSome = true := by
  induction L with
  | nil =>
    intro s i
    simp [keptIdxAux]
  | cons x rest ih =>
    intro s i
    cases x with
    | none =>
      rw [keptIdxAux, ih (s + 1) i]
      constructor
      · rintro ⟨j, hij, hj⟩
        exact ⟨j + 1, by omega, by simpa using hj⟩
      · rintro ⟨j, hij, hj⟩
        cases j with
        | zero => simp at hj
        | succ j => exact ⟨j, by omega, by simpa using hj⟩
    | some v =>
      rw [keptIdxAux]
      constructor
      · intro hmem
        rcases List.mem_cons.mp hmem with h | h
        · exact ⟨0, by omega, by simp⟩
        · rcases (ih (s + 1) i).mp h with ⟨j, hij, hj⟩
          exact ⟨j + 1, by omega, by simpa using hj⟩
      · rintro ⟨j, hij, hj⟩
        cases j with
        | zero => exact List.mem_cons.mpr (Or.inl (by omega))
        | succ j =>
          exact List.mem_cons.mpr (Or.inr ((ih (s + 1) i).mpr ⟨j, by omega, by simpa using hj⟩))

lemma mem_keptIdx (L : List (Option ℚ)) (i : ℕ) :
    i ∈ keptIdx L ↔ (L.getD i none).isSome = true := by
  rw [keptIdx, keptIdxAux_mem L 0 i]
  constructor
  · rintro ⟨j, hij, hj⟩
    rwa [show i = j by omega]
  · intro h
    exact ⟨i, by omega, h⟩

lemma keptIdxAux_ge (L : List (Option ℚ)) :
    ∀ s i, i ∈ keptIdxAux L s → s ≤ i := by
  intro s i h
  rcases (keptIdxAux_mem L s i).mp h with ⟨j, hij, _⟩
  omega

lemma keptIdxAux_nodup (L : List (Option ℚ)) : ∀ s, (keptIdxAux L s).Nodup := by
  induction L with
  | nil => intro s; simp [keptIdxAux]
  | cons x rest ih =>
    intro s
    cases x with
    | none => rw [keptIdxAux]; exact ih (s + 1)
    | some v =>
      rw [keptIdxAux]
      refine List.Nodup.cons ?_ (ih (s + 1))
      intro hmem
      have := keptIdxAux_ge rest (s + 1) s hmem
      omega

lemma keptIdx_nodup (L : List (Option ℚ)) : (keptIdx L).Nodup :=
  keptIdxAux_nodup L 0

lemma sortedPairs_perm (fl : List (Option ℚ)) :
    (sortedPairs fl).Perm fl.enum :=
  List.perm_insertionSort rDesc fl.enum

lemma sortedPairs_length (fl : List (Option ℚ)) :
    (sortedPairs fl).length = fl.length :=
  (sortedPairs_perm fl).length_eq.trans List.enum_length

lemma sortedPairs_sorted (fl : List (Option ℚ)) :
    (sortedPairs fl).Sorted rDesc :=
  List.sorted_insertionSort rDesc fl.enum

lemma sp_mem_struct (logits : List ℚ) (p : ℕ × Option ℚ)
    (hp : p ∈ sortedPairs (logits.map some)) :
    p.1 < logits.length ∧ p.2 = some (logits.getD p.1 0) := by
  have hmem : p ∈ (logits.map some).enum :=
    ((sortedPairs_perm (logits.map some)).mem_iff).mp hp
  have hget := List.mem_enum_iff_getElem?.mp hmem
  rw [List.getElem?_map] at hget
  cases hx : logits[p.1]? with
  | none => rw [hx] at hget; simp at hget
  | some v =>
    rw [hx] at hget
    have hv : p.2 = some v := by
      simpa using hget.symm
    have hlt : p.1 < logits.length := by
      by_contra hge
      rw [List.getElem?_eq_none (le_of_not_lt hge)] at hx
      cases hx
    refine ⟨hlt, ?_⟩
    rw [hv, List.getD_eq_getElem?_getD, hx]
    rfl

lemma sortedWeights_sum_eq (E : ℚ → ℚ) (logits : List ℚ) :
    (sortedWeights E (logits.map some)).sum = (logits.map E).sum := by
  rw [sortedWeights]
  rw [((sortedPairs_perm (logits.map some)).map (fun q => optWeight E q.2)).sum_eq]
  have h1 : (logits.map some).enum.map (fun q => optWeight E q.2) =
      (logits.map some).map (optWeight E) := by
    rw [show (fun (q : ℕ × Option ℚ) => optWeight E q.2) =
      (optWeight E) ∘ Prod.snd from rfl]
    rw [← List.map_map, List.enum_map_snd]
  rw [h1, List.map_map]
  rw [@List.map_congr_left ℚ logits ℚ (optWeight E ∘ some) E (fun a _ => rfl)]

lemma sortedWeights_sum_pos (E : ℚ → ℚ) (hE : ∀ x, 0 < E x) (logits : List ℚ)
    (hne : logits ≠ []) :
    0 < (sortedWeights E (logits.map some)).sum := by
  rw [sortedWeights_sum_eq]
  refine List.sum_pos _ ?_ (by simpa using hne)
  intro x hx
  rcases List.mem_map.mp hx with ⟨v, _, hv⟩
  rw [← hv]
  exact hE v

lemma sortedProbs_map_form (E : ℚ → ℚ) (fl : List (Option ℚ)) :
    sortedProbs E fl = (sortedWeights E fl).map
      (fun x => x / (sortedWeights E fl).sum) := by
  rw [sortedProbs, sortedWeights, List.map_map]
  rfl

lemma sum_map_div (w : List ℚ) (c : ℚ) :
    (w.map (fun x => x / c)).sum = w.sum / c := by
  have h1 : (w.map (fun x => x / c)).sum = (w.map (fun x => x * c⁻¹)).sum := by
    simp [div_eq_mul_inv]
  have h2 : (w.map (fun x => x * c⁻¹)).sum = (w.map id).sum * c⁻¹ :=
    List.sum_map_mul_right w id c⁻¹
  rw [h1, h2, List.map_id, div_eq_mul_inv]

lemma sortedProbs_sum_one (E : ℚ → ℚ) (hE : ∀ x, 0 < E x) (logits : List ℚ)
    (hne : logits ≠ []) :
    (sortedProbs E (logits.map some)).sum = 1 := by
  rw [sortedProbs_map_form, sum_map_div]
  exact div_self (ne_of_gt (sortedWeights_sum_pos E hE logits hne))

lemma sortedProbs_nonneg (E : ℚ → ℚ) (hE : ∀ x, 0 < E x) (fl : List (Option ℚ)) :
    ∀ x ∈ sortedProbs E fl, 0 ≤ x := by
  intro x hx
  rw [sortedProbs_map_form] at hx
  rcases List.mem_map.mp hx with ⟨y, hy, hxy⟩
  rw [← hxy]
  exact div_nonneg (sortedWeights_nonneg E hE fl y hy)
    (List.sum_nonneg (sortedWeights_nonneg E hE fl))

lemma sp_probOf (E : ℚ → ℚ) (logits : List ℚ) (p : ℕ × Option ℚ)
    (hp : p ∈ sortedPairs (logits.map some)) :
    probOf E logits p.1 = optWeight E p.2 / (sortedWeights E (logits.map some)).sum := by
  obtain ⟨hlt, hval⟩ := sp_mem_struct logits p hp
  rw [probOf, hval, sortedWeights_sum_eq]
  rfl

lemma cumProbs_length (E : ℚ → ℚ) (fl : List (Option ℚ)) :
    (cumProbs E fl).length = fl.length := by
  rw [cumProbs, cumsum_length, sortedProbs, List.length_map, sortedPairs_length]

lemma cutIdx_lt (E : ℚ → ℚ) (topP : ℚ) (logits : List ℚ)
    (hE : ∀ x, 0 < E x) (hp1 : topP < 1) (hne : logits ≠ []) :
    cutIdx E topP logits < logits.length := by
  have hlen : (cumProbs E (logits.map some)).length = logits.length := by
    rw [cumProbs_length, List.length_map]
  have hone : (1 : ℚ) ∈ cumProbs E (logits.map some) := by
    have hpne : sortedProbs E (logits.map some) ≠ [] := by
      intro h
      have := congrArg List.length h
      rw [sortedProbs, List.length_map, sortedPairs_length, List.length_map] at this
      simp only [List.length_nil] at this
      exact hne (List.length_eq_zero.mp this)
    have := cumsum_sum_mem (sortedProbs E (logits.map some)) hpne
    rwa [sortedProbs_sum_one E hE logits hne] at this
  by_contra hge
  push_neg at hge
  have heq : (cumProbs E (logits.map some)).countP (fun x => decide (x ≤ topP)) =
      (cumProbs E (logits.map some)).length :=
    le_antisymm (List.countP_le_length _) (by rw [hlen]; exact hge)
  have hall := List.countP_eq_length.mp heq 1 hone
  simp only [decide_eq_true_eq] at hall
  linarith

lemma topP_mask_struct (E : ℚ → ℚ) (topP : ℚ) (logits : List ℚ)
    (hE : ∀ x, 0 < E x) :
    (cumProbs E (logits.map some)).map (fun x => decide (topP < x)) =
      List.replicate (cutIdx E topP logits) false ++
      List.replicate (logits.length - cutIdx E topP logits) true := by
  have hpair : (cumProbs E (logits.map some)).Pairwise (· ≤ ·) := by
    rw [cumProbs]
    exact cumsum_pairwise_le _ (sortedProbs_nonneg E hE _)
  have := mono_flags (cumProbs E (logits.map some)) topP hpair
  rwa [cumProbs_length, List.length_map, ← cutIdx] at this

lemma topP_removed_struct (E : ℚ → ℚ) (topP : ℚ) (logits : List ℚ)
    (hE : ∀ x, 0 < E x) (hp1 : topP < 1) (hne : logits ≠ []) :
    removedIdx E topP (logits.map some) =
      ((sortedPairs (logits.map some)).drop (cutIdx E topP logits + 1)).map Prod.fst := by
  have hmlt := cutIdx_lt E topP logits hE hp1 hne
  have hsplen : (sortedPairs (logits.map some)).length = logits.length := by
    rw [sortedPairs_length, List.length_map]
  have hK : keepShiftMask E topP (logits.map some) =
      List.replicate (cutIdx E topP logits + 1) false ++
      List.replicate (logits.length - (cutIdx E topP logits + 1)) true := by
    rw [keepShiftMask, topP_mask_struct E topP logits hE,
      shiftMask_rep _ _ (by omega)]
    rw [show logits.length - cutIdx E topP logits - 1 =
      logits.length - (cutIdx E topP logits + 1) from by omega]
  rw [removedIdx, hK]
  conv_lhs =>
    rw [show sortedPairs (logits.map some) =
      (sortedPairs (logits.map some)).take (cutIdx E topP logits + 1) ++
      (sortedPairs (logits.map some)).drop (cutIdx E topP logits + 1) from
      (List.take_append_drop _ _).symm]
  rw [List.zip_append (by rw [List.length_take, List.length_replicate]; omega)]
  rw [List.filterMap_append, zip_rep_false_filterMap,
    zip_rep_true_filterMap _ _ (by rw [List.length_drop]; omega), List.nil_append]

lemma sortedProbs_length (E : ℚ → ℚ) (fl : List (Option ℚ)) :
    (sortedProbs E fl).length = fl.length := by
  rw [sortedProbs, List.length_map, sortedPairs_length]

lemma topP_output_length (E : ℚ → ℚ) (topP : ℚ) (logits : List ℚ) (hp0 : 0 < topP) :
    (topPStage E topP (logits.map some)).length = logits.length := by
  rw [topPStage, if_pos hp0, List.length_map, List.enum_length, List.length_map]

lemma topP_output_getD (E : ℚ → ℚ) (topP : ℚ) (logits : List ℚ) (hp0 : 0 < topP)
    (i : ℕ) (hi : i < logits.length) :
    (topPStage E topP (logits.map some)).getD i none =
      if i ∈ removedIdx E topP (logits.map some) then none
      else some (logits.getD i 0) := by
  rw [topPStage, if_pos hp0]
  have hienum : i < (logits.map some).enum.length := by
    rw [List.enum_length, List.length_map]
    exact hi
  have himap : i < ((logits.map some).enum.map
      (fun p => if p.1 ∈ removedIdx E topP (logits.map some) then none else p.2)).length := by
    rw [List.length_map]
    exact hienum
  rw [List.getD_eq_getElem _ _ himap, List.getElem_map, List.getElem_enum]
  have hmi : i < (logits.map some).length := by rw [List.length_map]; exact hi
  have : (logits.map some)[i] = some (logits.getD i 0) := by
    rw [List.getElem_map, List.getD_eq_getElem _ _ hi]
  rw [this]

lemma topP_kept_mem_iff (E : ℚ → ℚ) (topP : ℚ) (logits : List ℚ)
    (hE : ∀ x, 0 < E x) (hp0 : 0 < topP) (hp1 : topP < 1) (hne : logits ≠ []) :
    ∀ i, i ∈ keptIdx (topPStage E topP (logits.map some)) ↔
      i ∈ ((sortedPairs (logits.map some)).take (cutIdx E topP logits + 1)).map Prod.fst := by
  intro i
  have hRdrop := topP_removed_struct E topP logits hE hp1 hne
  have hfst_perm : ((sortedPairs (logits.map some)).map Prod.fst).Perm
      (List.range logits.length) := by
    have h1 := (sortedPairs_perm (logits.map some)).map Prod.fst
    rw [List.enum_map_fst, List.length_map] at h1
    exact h1
  have hfst_nodup : ((sortedPairs (logits.map some)).map Prod.fst).Nodup :=
    hfst_perm.symm.nodup (List.nodup_range _)
  have hsplit : (sortedPairs (logits.map some)).map Prod.fst =
      ((sortedPairs (logits.map some)).take (cutIdx E topP logits + 1)).map Prod.fst ++
      ((sortedPairs (logits.map some)).drop (cutIdx E topP logits + 1)).map Prod.fst := by
    rw [← List.map_append, List.take_append_drop]
  have hdisj := (List.nodup_append.mp (hsplit ▸ hfst_nodup)).2.2
  have hmid : i ∈ keptIdx (topPStage E topP (logits.map some)) ↔
      (i < logits.length ∧ i ∉ removedIdx E topP (logits.map some)) := by
    rw [mem_keptIdx]
    by_cases hi : i < logits.length
    · rw [topP_output_getD E topP logits hp0 i hi]
      by_cases hiR : i ∈ removedIdx E topP (logits.map some)
      · simp [hiR]
      · simp [hiR, hi]
    · have hlen : (topPStage E topP (logits.map some)).length ≤ i := by
        rw [topP_output_length E topP logits hp0]
        omega
      rw [List.getD_eq_getElem?_getD, List.getElem?_eq_none hlen]
      simp [hi]
  rw [hmid]
  constructor
  · rintro ⟨hilt, hiR⟩
    have hir : i ∈ (sortedPairs (logits.map some)).map Prod.fst :=
      hfst_perm.mem_iff.mpr (List.mem_range.mpr hilt)
    rw [hsplit] at hir
    rcases List.mem_append.mp hir with h | h
    · exact h
    · exact absurd (hRdrop ▸ h) hiR
  · intro h
    refine ⟨?_, ?_⟩
    · have hir : i ∈ (sortedPairs (logits.map some)).map Prod.fst := by
        rw [hsplit]
        exact List.mem_append.mpr (Or.inl h)
      exact List.mem_range.mp (hfst_perm.mem_iff.mp hir)
    · rw [hRdrop]
      exact fun hcon => hdisj h hcon

lemma topP_kept_perm (E : ℚ → ℚ) (topP : ℚ) (logits : List ℚ)
    (hE : ∀ x, 0 < E x) (hp0 : 0 < topP) (hp1 : topP < 1) (hne : logits ≠ []) :
    (keptIdx (topPStage E topP (logits.map some))).Perm
      (((sortedPairs (logits.map some)).take (cutIdx E topP logits + 1)).map Prod.fst) := by
  have hfst_perm : ((sortedPairs (logits.map some)).map Prod.fst).Perm
      (List.range logits.length) := by
    have h1 := (sortedPairs_perm (logits.map some)).map Prod.fst
    rw [List.enum_map_fst, List.length_map] at h1
    exact h1
  have hfst_nodup : ((sortedPairs (logits.map some)).map Prod.fst).Nodup :=
    hfst_perm.symm.nodup (List.nodup_range _)
  have htake_nodup :
      (((sortedPairs (logits.map some)).take (cutIdx E topP logits + 1)).map Prod.fst).Nodup := by
    rw [List.map_take]
    exact (List.take_sublist _ _).nodup hfst_nodup
  exact (List.perm_ext_iff_of_nodup (keptIdx_nodup _) htake_nodup).mpr
    (topP_kept_mem_iff E topP logits hE hp0 hp1 hne)

lemma topP_kept_sum (E : ℚ → ℚ) (topP : ℚ) (logits : List ℚ)
    (hE : ∀ x, 0 < E x) (hp0 : 0 < topP) (hp1 : topP < 1) (hne : logits ≠ []) :
    ((keptIdx (topPStage E topP (logits.map some))).map (probOf E logits)).sum =
      ((sortedProbs E (logits.map some)).take (cutIdx E topP logits + 1)).sum := by
  rw [((topP_kept_perm E topP logits hE hp0 hp1 hne).map (probOf E logits)).sum_eq]
  rw [List.map_map]
  have hcong : ((sortedPairs (logits.map some)).take (cutIdx E topP logits + 1)).map
      (probOf E logits ∘ Prod.fst) =
      ((sortedPairs (logits.map some)).take (cutIdx E topP logits + 1)).map
      (fun q => optWeight E q.2 / (sortedWeights E (logits.map some)).sum) := by
    apply List.map_congr_left
    intro p hp
    exact sp_probOf E logits p (List.mem_of_mem_take hp)
  rw [hcong, List.map_take]
  rfl

lemma topP_cum_getD (E : ℚ → ℚ) (logits : List ℚ) (j : ℕ) (hj : j < logits.length) :
    (cumProbs E (logits.map some)).getD j 0 =
      ((sortedProbs E (logits.map some)).take (j + 1)).sum := by
  rw [cumProbs]
  exact cumsum_getD _ j (by rw [sortedProbs_length, List.length_map]; exact hj)

lemma topP_coverage (E : ℚ → ℚ) (topP : ℚ) (logits : List ℚ)
    (hE : ∀ x, 0 < E x) (hp1 : topP < 1) (hne : logits ≠ []) :
    topP < ((sortedProbs E (logits.map some)).take (cutIdx E topP logits + 1)).sum := by
  have hmlt := cutIdx_lt E topP logits hE hp1 hne
  have hmask := topP_mask_struct E topP logits hE
  have hcumlen : (cumProbs E (logits.map some)).length = logits.length := by
    rw [cumProbs_length, List.length_map]
  have hmm : cutIdx E topP logits <
      ((cumProbs E (logits.map some)).map (fun x => decide (topP < x))).length := by
    rw [List.length_map, hcumlen]
    exact hmlt
  have hflag : ((cumProbs E (logits.map some)).map
      (fun x => decide (topP < x)))[cutIdx E topP logits] = true := by
    rw [List.getElem_of_eq hmask]
    rw [List.getElem_append_right (by rw [List.length_replicate])]
    exact List.getElem_replicate _ _
  have hcumm : cutIdx E topP logits < (cumProbs E (logits.map some)).length := by
    rw [hcumlen]; exact hmlt
  rw [List.getElem_map] at hflag
  have : topP < (cumProbs E (logits.map some))[cutIdx E topP logits] := by
    simpa using hflag
  rwa [← List.getD_eq_getElem _ 0 hcumm, topP_cum_getD E logits _ hmlt] at this

lemma topP_prefix_le (E : ℚ → ℚ) (topP : ℚ) (logits : List ℚ)
    (hE : ∀ x, 0 < E x) (hp0 : 0 < topP) (hp1 : topP < 1) (hne : logits ≠ []) :
    ((sortedProbs E (logits.map some)).take (cutIdx E topP logits)).sum ≤ topP := by
  have hmlt := cutIdx_lt E topP logits hE hp1 hne
  cases hm : cutIdx E topP logits with
  | zero => simp [hp0.le]
  | succ m1 =>
    have hmask := topP_mask_struct E topP logits hE
    have hcumlen : (cumProbs E (logits.map some)).length = logits.length := by
      rw [cumProbs_length, List.length_map]
    have hm1lt : m1 < logits.length := by omega
    have hmm : m1 < ((cumProbs E (logits.map some)).map
        (fun x => decide (topP < x))).length := by
      rw [List.length_map, hcumlen]
      exact hm1lt
    have hflag : ((cumProbs E (logits.map some)).map
        (fun x => decide (topP < x)))[m1] = false := by
      rw [List.getElem_of_eq hmask]
      rw [List.getElem_append_left (by rw [List.length_replicate, hm]; omega)]
      exact List.getElem_replicate _ _
    have hcumm : m1 < (cumProbs E (logits.map some)).length := by
      rw [hcumlen]; exact hm1lt
    rw [List.getElem_map] at hflag
    have hle : (cumProbs E (logits.map some))[m1] ≤ topP := by
      have := of_decide_eq_false hflag
      exact not_lt.mp this
    rwa [← List.getD_eq_getElem _ 0 hcumm, topP_cum_getD E logits _ hm1lt] at hle

lemma sp_prob_le (E : ℚ → ℚ) (logits : List ℚ) (hE : ∀ x, 0 < E x)
    (hmono : StrictMono E) (hne : logits ≠ []) (p q : ℕ × Option ℚ)
    (hp : p ∈ sortedPairs (logits.map some)) (hq : q ∈ sortedPairs (logits.map some))
    (hrel : rDesc p q) :
    probOf E logits q.1 ≤ probOf E logits p.1 := by
  obtain ⟨hplt, hpval⟩ := sp_mem_struct logits p hp
  obtain ⟨hqlt, hqval⟩ := sp_mem_struct logits q hq
  rw [sp_probOf E logits p hp, sp_probOf E logits q hq, hpval, hqval]
  have hvle : logits.getD q.1 0 ≤ logits.getD p.1 0 := by
    rw [rDesc, hpval, hqval] at hrel
    exact hrel
  have hT := sortedWeights_sum_pos E hE logits hne
  rw [optWeight, optWeight]
  exact (div_le_div_iff_of_pos_right hT).mpr (hmono.monotone hvle)

/-- Claim C2, amended: for `top_p ∈ (0,1)` the set of entries kept by the
nucleus filter of `top_k_logits` has cumulative pre-filter softmax
probability `≥ top_p`, always contains a highest-probability token, and is
minimal **up to ties at the boundary**: removing its lowest-ranked member
brings the cumulative probability to **at most** `top_p` (not necessarily
strictly below it — at an exact tie the remainder equals `top_p`). -/
theorem C2_nucleus_filter (E : ℚ → ℚ) (logits : List ℚ) (topP : ℚ)
    (hE : ∀ x, 0 < E x) (hmono : StrictMono E)
    (hp0 : 0 < topP) (hp1 : topP < 1) (hne : logits ≠ []) :
    ∃ fl, top_k_logits E 0 topP logits = some fl ∧
      topP ≤ ((keptIdx fl).map (probOf E logits)).sum ∧
      (∃ i1 ∈ keptIdx fl, ∀ j < logits.length,
        probOf E logits j ≤ probOf E logits i1) ∧
      (∃ i0 ∈ keptIdx fl, (∀ i ∈ keptIdx fl,
        probOf E logits i0 ≤ probOf E logits i) ∧
        ((keptIdx fl).map (probOf E logits)).sum - probOf E logits i0 ≤ topP) := by
  have hn1 : 0 < logits.length := List.length_pos.mpr hne
  have hmlt := cutIdx_lt E topP logits hE hp1 hne
  have hsplen : (sortedPairs (logits.map some)).length = logits.length := by
    rw [sortedPairs_length, List.length_map]
  have hprobslen : (sortedProbs E (logits.map some)).length = logits.length := by
    rw [sortedProbs_length, List.length_map]
  have h0sp : 0 < (sortedPairs (logits.map some)).length := by omega
  have hmsp : cutIdx E topP logits < (sortedPairs (logits.map some)).length := by omega
  have htkl : top_k_logits E 0 topP logits =
      some (topPStage E topP (logits.map some)) := by
    rw [top_k_logits, topKStage, if_neg (lt_irrefl 0), Option.map_some']
  have hsum := topP_kept_sum E topP logits hE hp0 hp1 hne
  have hsorted := sortedPairs_sorted (logits.map some)
  have htake_mem : ∀ j, ∀ hj : j < cutIdx E topP logits + 1,
      ∀ hjs : j < (sortedPairs (logits.map some)).length,
      (sortedPairs (logits.map some)).get ⟨j, hjs⟩ ∈
        (sortedPairs (logits.map some)).take (cutIdx E topP logits + 1) := by
    intro j hj hjs
    apply List.mem_iff_getElem.mpr
    have hlt : j < ((sortedPairs (logits.map some)).take
        (cutIdx E topP logits + 1)).length := by
      rw [List.length_take]
      omega
    exact ⟨j, hlt, by rw [List.getElem_take]; rfl⟩
  refine ⟨_, htkl, ?_, ?_, ?_⟩
  · rw [hsum]
    exact (topP_coverage E topP logits hE hp1 hne).le
  · -- a highest-probability token is kept (sorted position 0)
    refine ⟨((sortedPairs (logits.map some)).get ⟨0, h0sp⟩).1, ?_, ?_⟩
    · rw [topP_kept_mem_iff E topP logits hE hp0 hp1 hne]
      exact List.mem_map.mpr ⟨_, htake_mem 0 (by omega) h0sp, rfl⟩
    · intro j hj
      have hpair : ((j, some (logits.getD j 0)) : ℕ × Option ℚ) ∈
          sortedPairs (logits.map some) := by
        rw [(sortedPairs_perm (logits.map some)).mem_iff, List.mem_enum_iff_getElem?]
        show (logits.map some)[j]? = some (some (logits.getD j 0))
        rw [List.getElem?_map, List.getElem?_eq_getElem hj, List.getD_eq_getElem _ _ hj]
        rfl
      obtain ⟨jq, hjq, hjqe⟩ := List.mem_iff_getElem.mp hpair
      have hle0 : (⟨0, h0sp⟩ : Fin (sortedPairs (logits.map some)).length) ≤ ⟨jq, hjq⟩ := by
        simp [Fin.le_def]
      have hrel := hsorted.rel_get_of_le hle0
      have hprob := sp_prob_le E logits hE hmono hne _ _
        (List.get_mem _ _ _) (List.get_mem _ _ _) hrel
      have hq1 : ((sortedPairs (logits.map some)).get ⟨jq, hjq⟩).1 = j := by
        rw [List.get_eq_getElem, hjqe]
      rwa [hq1] at hprob
  · -- the lowest-ranked kept entry (sorted position cutIdx)
    refine ⟨((sortedPairs (logits.map some)).get ⟨cutIdx E topP logits, hmsp⟩).1, ?_, ?_, ?_⟩
    · rw [topP_kept_mem_iff E topP logits hE hp0 hp1 hne]
      exact List.mem_map.mpr ⟨_, htake_mem _ (by omega) hmsp, rfl⟩
    · intro i hi
      rw [topP_kept_mem_iff E topP logits hE hp0 hp1 hne] at hi
      obtain ⟨q, hqtake, hq1⟩ := List.mem_map.mp hi
      obtain ⟨jq, hjqlt, hjqe⟩ := List.mem_iff_getElem.mp hqtake
      have hjqtake : jq < cutIdx E topP logits + 1 := by
        have := List.length_take (cutIdx E topP logits + 1)
          (sortedPairs (logits.map some))
        omega
      have hjqsp : jq < (sortedPairs (logits.map some)).length := by omega
      have hqval : (sortedPairs (logits.map some)).get ⟨jq, hjqsp⟩ = q := by
        rw [List.get_eq_getElem, ← List.getElem_take
          (sortedPairs (logits.map some)) (h := hjqlt), hjqe]
      have hlejq : (⟨jq, hjqsp⟩ : Fin (sortedPairs (logits.map some)).length) ≤
          ⟨cutIdx E topP logits, hmsp⟩ := by
        simp [Fin.le_def]
        omega
      have hrel := hsorted.rel_get_of_le hlejq
      have hprob := sp_prob_le E logits hE hmono hne _ _
        (List.get_mem _ _ _) (List.get_mem _ _ _) hrel
      rwa [hqval, hq1] at hprob
    · rw [hsum]
      have hpm : (sortedProbs E (logits.map some)).getD (cutIdx E topP logits) 0 =
          probOf E logits
            (((sortedPairs (logits.map some)).get ⟨cutIdx E topP logits, hmsp⟩).1) := by
        rw [sp_probOf E logits _ (List.get_mem _ _ _)]
        rw [sortedProbs]
        have hmm : cutIdx E topP logits < ((sortedPairs (logits.map some)).map
            (fun q => optWeight E q.2 / (sortedWeights E (logits.map some)).sum)).length := by
          rw [List.length_map]
          exact hmsp
        rw [List.getD_eq_getElem _ _ hmm, List.getElem_map]
        rfl
      have hsplit : ((sortedProbs E (logits.map some)).take
          (cutIdx E topP logits + 1)).sum =
          ((sortedProbs E (logits.map some)).take (cutIdx E topP logits)).sum +
          (sortedProbs E (logits.map some)).getD (cutIdx E topP logits) 0 := by
        have hmp : cutIdx E topP logits < (sortedProbs E (logits.map some)).length := by
          omega
        rw [List.take_succ, List.getElem?_eq_getElem hmp]
        rw [List.sum_append, List.getD_eq_getElem _ _ hmp]
        simp
      have hpre := topP_prefix_le E topP logits hE hp0 hp1 hne
      rw [hsplit, hpm]
      linarith

/-- Claim C2, counterexample to strict minimality: at the logits row
`[0, 0]` (equal logits, so the real softmax is exactly `[1/2, 1/2]`, matched
here by the constant exponential) with `top_p = 1/2`, the filter keeps
**both** entries; removing the lowest-ranked kept entry (original index 1)
leaves cumulative probability exactly `1/2 = top_p`, which is **not**
"below top_p" — the claimed strict minimality fails at ties. -/
theorem C2_counterexample :
    top_k_logits (fun _ => 1) 0 (1 / 2) [0, 0] = some [some 0, some 0] ∧
    keptIdx [some 0, some 0] = [0, 1] ∧
    ((keptIdx [some 0, some 0]).map (probOf (fun _ => 1) [0, 0])).sum -
      probOf (fun _ => 1) [0, 0] 1 = 1 / 2 ∧
    ¬ ((1 / 2 : ℚ) < 1 / 2) := by
  refine ⟨?_, by decide, ?_, by norm_num⟩
  · norm_num [top_k_logits, topKStage, topPStage, sortedPairs, sortedWeights,
      sortedProbs, cumProbs, keepShiftMask, removedIdx, List.insertionSort,
      List.orderedInsert, rDesc, oLe, cumsum, shiftMask, optWeight, List.enum,
      List.enumFrom]
  · norm_num [keptIdx, keptIdxAux, probOf]

lemma Ewit_pos : ∀ x, 0 < Ewit x := by
  intro x
  rw [Ewit]
  by_cases hx : (0 : ℚ) ≤ x
  · rw [if_pos hx]
    linarith
  · rw [if_neg hx]
    push_neg at hx
    exact div_pos one_pos (by linarith)

lemma Ewit_mono : StrictMono Ewit := by
  intro a b hab
  simp only [Ewit]
  by_cases ha : (0 : ℚ) ≤ a
  · have hb : (0 : ℚ) ≤ b := le_trans ha hab.le
    rw [if_pos ha, if_pos hb]
    simpa using hab
  · push_neg at ha
    rw [if_neg (not_le.mpr ha)]
    by_cases hb : (0 : ℚ) ≤ b
    · rw [if_pos hb]
      have h1 : 1 / (1 - a) < 1 := by
        rw [div_lt_one (by linarith)]
        linarith
      linarith
    · push_neg at hb
      rw [if_neg (not_le.mpr hb)]
      apply one_div_lt_one_div_of_lt (by linarith) (by linarith)

/-- Witness for `C2_nucleus_filter` at a concrete input. -/
theorem C2_witness :
    ∃ fl, top_k_logits Ewit 0 (1 / 2) [1, 0] = some fl ∧
      1 / 2 ≤ ((keptIdx fl).map (probOf Ewit [1, 0])).sum ∧
      (∃ i1 ∈ keptIdx fl, ∀ j < ([1, 0] : List ℚ).length,
        probOf Ewit [1, 0] j ≤ probOf Ewit [1, 0] i1) ∧
      (∃ i0 ∈ keptIdx fl, (∀ i ∈ keptIdx fl,
        probOf Ewit [1, 0] i0 ≤ probOf Ewit [1, 0] i) ∧
        ((keptIdx fl).map (probOf Ewit [1, 0])).sum -
          probOf Ewit [1, 0] i0 ≤ 1 / 2) :=
  C2_nucleus_filter Ewit [1, 0] (1 / 2) Ewit_pos Ewit_mono (by norm_num)
    (by norm_num) (by decide)

end SwissArmyTransformer
